import Mathlib

/-!
Shallow embedding of the `file_organizer` CLI (src/src/main.rs) and proofs
about its scan-and-plan engine.

Modelling conventions:
* An OS string (`OsStr`) is a list of `OsChar`s: either a decodable unicode
  character or a non-UTF-8 byte.  `osToStr` models `OsStr::to_str`
  (succeeds iff every position is a decodable character).
* A path is a list of already-normalized components relative to the target
  folder (the folder itself is `[]`); entry names produced by `read_dir`
  are single components, so `entry.path()` is the one-component path
  `[name]` and destination paths are three components.
* The filesystem visible to the program is `FS`: the list of entries the
  program can observe, each with its path, its kind as reported by
  `metadata()` (file, directory, or neither --- e.g. a symlink, socket or
  device, since `DirEntry::metadata` does not follow links), and a flag
  `metaOk` telling whether the `metadata()` call itself succeeds.
* Fallible filesystem mutation (`create_dir_all`, `rename`) is driven by an
  `Oracle` deciding which primitive calls fail; theorems quantify over all
  oracles.
* Printing is modelled by the returned move list: `organize`'s `ok` payload
  is the plan it printed (dry run) or fully executed (real run).
-/

namespace FileOrganizer

/-- One position of an OS string: a decodable character or an invalid byte. -/
inductive OsChar where
  | ch (c : Char)
  | bad (b : Nat)
deriving DecidableEq, Repr

/-- Decoded strings (Rust `String`) as lists of characters. -/
abbrev Str := List Char

/-- A Lean string literal as a `Str`. -/
def str (s : String) : Str := s.toList

/-- An OS string: what Rust sees as an `OsStr`. -/
abbrev OsStr := List OsChar

/-- Encode a decoded string as an OS string (every position decodable). -/
def strOs (s : Str) : OsStr := s.map OsChar.ch

/-- Models `OsStr::to_str`: succeeds iff every position is a decodable character. -/
def osToStr : OsStr → Option Str
  | [] => some []
  | OsChar.ch c :: rest => (osToStr rest).map (fun t => c :: t)
  | OsChar.bad _ :: _ => none

/-- Models `str::to_lowercase` (per-character case folding). -/
def lowerStr (s : Str) : Str := s.map Char.toLower

/-- A path, as the list of its components relative to the target folder. -/
abbrev FsPath := List OsStr

/-- Split a file name at its last `.`: `some (before, after)` when a dot
exists, preferring the rightmost dot (Rust `split_file_at_dot`). -/
def splitLastDot : OsStr → Option (OsStr × OsStr)
  | [] => none
  | c :: rest =>
    match splitLastDot rest with
    | some (b, a) => some (c :: b, a)
    | none => if c = OsChar.ch '.' then some ([], rest) else none

/-- Rust `Path::extension` restricted to a file name: `none` when the name
is `..`, has no dot, or its only dot is leading; otherwise the portion
after the last dot. -/
def extOf (fname : OsStr) : Option OsStr :=
  if fname = strOs (str "..") then none
  else
    match splitLastDot fname with
    | none => none
    | some (b, a) => if b = [] then none else some a

/-- Rust `Path::file_name` on a normalized component list: the last
component, unless the path is empty or ends in an empty, `.` or `..`
component. -/
def fileNameOpt (p : FsPath) : Option OsStr :=
  match p.getLast? with
  | none => none
  | some c =>
    if c = [] ∨ c = strOs (str ".") ∨ c = strOs (str "..") then none else some c

/-- Rust `Path::extension`: the extension of the file-name component. -/
def extPath (p : FsPath) : Option OsStr := (fileNameOpt p).bind extOf

/-- The shared extension-key computation
`path.extension().and_then(|s| s.to_str()).map(|s| s.to_lowercase()).unwrap_or(sentinel)`. -/
def extKey (sentinel : Str) (p : FsPath) : Str :=
  (((extPath p).bind osToStr).map lowerStr).getD sentinel

/-- The scan reporter's bucket key (sentinel `"(no_ext)"`, main.rs:83-87). -/
def scanKeyPath (p : FsPath) : Str := extKey (str "(no_ext)") p

/-- The organize planner's folder key (sentinel `"no_ext"`, main.rs:133-137). -/
def orgKeyPath (p : FsPath) : Str := extKey (str "no_ext") p

/-- Kind of an entry as reported by `metadata()`.  `other` covers entries
that are neither a regular file nor a directory (symlinks, sockets, ...). -/
inductive EntryKind where
  | file
  | dir
  | other
deriving DecidableEq, Repr

/-- One entry yielded by `fs::read_dir` on the target folder: its file
name, its metadata kind, and whether its `metadata()` call succeeds. -/
structure DirEntry where
  name : OsStr
  kind : EntryKind
  metaOk : Bool
deriving DecidableEq, Repr

/-- The error outcomes the embedded functions can produce: an
`std::io::Error` surfaced through `?`, or a panic from `unwrap`. -/
inductive Err where
  | ioError
  | unwrapPanic
deriving DecidableEq, Repr

/-- The scan report (struct `Report`, main.rs:54-59).  `by_extension` is an
association list standing for the `BTreeMap` (the map's ordering only
affects display, which is out of scope). -/
structure Report where
  total_entries : Nat
  files : Nat
  dirs : Nat
  by_extension : List (Str × Nat)
deriving DecidableEq, Repr

/-- The all-zero report `scan_folder` starts from (main.rs:62-67). -/
def initReport : Report := ⟨0, 0, 0, []⟩

/-- Models `*report.by_extension.entry(ext).or_insert(0) += 1` on the association
list: bump the first binding of the key, or append `(key, 1)`. -/
def bumpExt : List (Str × Nat) → Str → List (Str × Nat)
  | [], k => [(k, 1)]
  | (k', v) :: rest, k =>
    if k' = k then (k', v + 1) :: rest else (k', v) :: bumpExt rest k

/-- Rust `scan_folder` (main.rs:61-94) folded over the directory listing.  Each
entry bumps `total_entries`; a failing `metadata()` aborts with an I/O
error; directories bump `dirs`; files bump `files` and their extension
bucket; other kinds bump nothing further. -/
def scan_folder : List DirEntry → Report → Except Err Report
  | [], r => Except.ok r
  | e :: rest, r =>
    let r1 : Report := { r with total_entries := r.total_entries + 1 }
    if e.metaOk = false then Except.error Err.ioError
    else if e.kind = EntryKind.dir then
      scan_folder rest { r1 with dirs := r1.dirs + 1 }
    else if e.kind = EntryKind.file then
      scan_folder rest
        { r1 with files := r1.files + 1,
                  by_extension := bumpExt r1.by_extension (scanKeyPath [e.name]) }
    else
      scan_folder rest r1

/-- Sum of the counts of a `by_extension` association list. -/
def sumB : List (Str × Nat) → Nat
  | [] => 0
  | (_, v) :: rest => v + sumB rest

/-- Count stored under a key in a `by_extension` association list
(first binding wins; `0` when absent). -/
def lookupD : List (Str × Nat) → Str → Nat
  | [], _ => 0
  | (k', v) :: rest, k => if k' = k then v else lookupD rest k

/-- Number of file entries of a listing whose scan key is `k`. -/
def countKey : List DirEntry → Str → Nat
  | [], _ => 0
  | e :: rest, k =>
    (if e.kind = EntryKind.file ∧ scanKeyPath [e.name] = k then 1 else 0)
      + countKey rest k

/-- The planning loop of `organize_by_extension` (main.rs:120-144): skip an
entry whose decoded file name is `"organized"`, abort on a failing
`metadata()`, skip non-files, and otherwise record the move
`(path, organized/<ext-or-no_ext>/<file_name.unwrap()>)`.  A `file_name()`
of `None` at the `unwrap` is a panic. -/
def planMoves : List DirEntry → Except Err (List (FsPath × FsPath))
  | [] => Except.ok []
  | e :: rest =>
    if (fileNameOpt [e.name]).bind osToStr = some (str "organized") then
      planMoves rest
    else if e.metaOk = false then Except.error Err.ioError
    else if e.kind ≠ EntryKind.file then planMoves rest
    else
      match fileNameOpt [e.name] with
      | none => Except.error Err.unwrapPanic
      | some n =>
        match planMoves rest with
        | Except.error err => Except.error err
        | Except.ok tl =>
          Except.ok (([e.name],
            [strOs (str "organized"), strOs (orgKeyPath [e.name]), n]) :: tl)

/-- One entry of the observable filesystem state. -/
structure FSEntry where
  path : FsPath
  kind : EntryKind
  metaOk : Bool
deriving DecidableEq, Repr

/-- The observable filesystem state: the entries reachable from the target
folder, in listing order. -/
structure FS where
  entries : List FSEntry
deriving DecidableEq, Repr

/-- Models `fs::read_dir(folder)`: the immediate (one-component) children. -/
def readDirTop (fs : FS) : List DirEntry :=
  fs.entries.filterMap (fun e =>
    match e.path with
    | [n] => some ⟨n, e.kind, e.metaOk⟩
    | _ => none)

/-- Create a single directory at `p` unless an entry already sits there. -/
def mkdirIfMissing (p : FsPath) (fs : FS) : FS :=
  if fs.entries.any (fun e => e.path = p) then fs
  else ⟨fs.entries ++ [⟨p, EntryKind.dir, true⟩]⟩

/-- The nonempty prefixes of a path, shortest first. -/
def pathPrefixes : FsPath → List FsPath
  | [] => []
  | c :: rest => [c] :: (pathPrefixes rest).map (fun q => c :: q)

/-- Successful `fs::create_dir_all(p)`: create every missing prefix of `p`. -/
def create_dir_all (p : FsPath) (fs : FS) : FS :=
  (pathPrefixes p).foldl (fun f q => mkdirIfMissing q f) fs

/-- Successful `fs::rename(src, dst)`: every entry at `src` now sits at
`dst` (appended at the end of the listing), all other entries unchanged. -/
def rename (src dst : FsPath) (fs : FS) : FS :=
  ⟨fs.entries.filter (fun e => e.path ≠ src)
    ++ (fs.entries.filter (fun e => e.path = src)).map
        (fun e => ⟨dst, e.kind, e.metaOk⟩)⟩

/-- Decides which fallible filesystem mutations fail on this run. -/
structure Oracle where
  createFail : FsPath → Bool
  renameFail : FsPath → FsPath → Bool

/-- The execute loop of `organize_by_extension` (main.rs:161-167): for each
move in order, `fs::create_dir_all(dst.parent())?` then
`fs::rename(src, dst)?`; a failing call aborts immediately with an I/O
error, leaving the state reached so far. -/
def execMoves (o : Oracle) : List (FsPath × FsPath) → FS → Except Err Unit × FS
  | [], fs => (Except.ok (), fs)
  | (src, dst) :: rest, fs =>
    if o.createFail dst.dropLast then (Except.error Err.ioError, fs)
    else
      let fs1 := create_dir_all dst.dropLast fs
      if o.renameFail src dst then (Except.error Err.ioError, fs1)
      else execMoves o rest (rename src dst fs1)

/-- The infallible effect of one move: create the destination's parents,
then rename. -/
def applyMove (m : FsPath × FsPath) (fs : FS) : FS :=
  rename m.1 m.2 (create_dir_all m.2.dropLast fs)

/-- The infallible effect of a list of moves, in order. -/
def applyMoves (mvs : List (FsPath × FsPath)) (fs : FS) : FS :=
  mvs.foldl (fun f m => applyMove m f) fs

/-- Execute-mode tail of `organize_by_extension`: run the moves and report
either the executed plan or the aborting I/O error. -/
def execResult (o : Oracle) (mvs : List (FsPath × FsPath)) (fs : FS) :
    Except Err (List (FsPath × FsPath)) × FS :=
  match execMoves o mvs fs with
  | (Except.ok _, fs2) => (Except.ok mvs, fs2)
  | (Except.error e2, fs2) => (Except.error e2, fs2)

/-- Rust `organize_by_extension` (main.rs:113-171): plan from the listing; an
empty plan is a no-op; dry run prints the plan and mutates nothing;
otherwise execute.  The `ok` payload is the printed / executed plan. -/
def organize (o : Oracle) (dry : Bool) (fs : FS) :
    Except Err (List (FsPath × FsPath)) × FS :=
  match planMoves (readDirTop fs) with
  | Except.error e => (Except.error e, fs)
  | Except.ok moves =>
    if moves = [] then (Except.ok moves, fs)
    else if dry = true then (Except.ok moves, fs)
    else execResult o moves fs

/-- An oracle on which every filesystem mutation succeeds. -/
def okOracle : Oracle := ⟨fun _ => false, fun _ _ => false⟩

/-- An oracle on which every filesystem mutation fails. -/
def failOracle : Oracle := ⟨fun _ => true, fun _ _ => true⟩

/-- A file name whose extension component is not valid UTF-8. -/
def badName : OsStr := [OsChar.ch 'a', OsChar.ch '.', OsChar.bad 255]

/-- A one-file directory used to exercise the organize pipeline. -/
def fsSample : FS := ⟨[⟨[strOs (str "a")], EntryKind.file, true⟩]⟩

/-- The state `organize` leaves behind on `fsSample`. -/
def fsSampleAfter : FS :=
  ⟨[⟨[strOs (str "organized")], EntryKind.dir, true⟩,
    ⟨[strOs (str "organized"), strOs (str "no_ext")], EntryKind.dir, true⟩,
    ⟨[strOs (str "organized"), strOs (str "no_ext"), strOs (str "a")],
      EntryKind.file, true⟩]⟩

/-- The single move `organize` plans on `fsSample`. -/
def mvSample : FsPath × FsPath :=
  ([strOs (str "a")],
   [strOs (str "organized"), strOs (str "no_ext"), strOs (str "a")])

/-! ## Helper lemmas -/

theorem sumB_bumpExt (m : List (Str × Nat)) (k : Str) :
    sumB (bumpExt m k) = sumB m + 1 := by
  induction m with
  | nil => simp [bumpExt, sumB]
  | cons p rest ih =>
    obtain ⟨k', v⟩ := p
    by_cases h : k' = k
    · simp [bumpExt, h, sumB]
      omega
    · simp [bumpExt, h, sumB, ih]
      omega

theorem lookupD_bumpExt (m : List (Str × Nat)) (k k' : Str) :
    lookupD (bumpExt m k) k'
      = lookupD m k' + (if k = k' then 1 else 0) := by
  induction m with
  | nil =>
    by_cases h : k = k'
    · simp [bumpExt, lookupD, h]
    · simp [bumpExt, lookupD, h]
  | cons p rest ih =>
    obtain ⟨k0, v⟩ := p
    by_cases h0 : k0 = k
    · subst h0
      by_cases h1 : k0 = k'
      · simp [bumpExt, lookupD, h1]
      · simp [bumpExt, lookupD, h1]
    · by_cases h1 : k0 = k'
      · subst h1
        have h2 : ¬ k = k0 := fun h => h0 h.symm
        simp [bumpExt, lookupD, h0, h2]
      · simp [bumpExt, lookupD, h0, h1, ih]

theorem scan_folder_totals (l : List DirEntry) :
    ∀ r rep, scan_folder l r = Except.ok rep →
      (∀ e ∈ l, e.kind = EntryKind.file ∨ e.kind = EntryKind.dir) →
      rep.files + rep.dirs + r.total_entries
        = rep.total_entries + r.files + r.dirs := by
  induction l with
  | nil =>
    intro r rep h _
    simp [scan_folder] at h
    subst h
    omega
  | cons e rest ih =>
    intro r rep h hk
    have hke := hk e (by simp)
    have hkr : ∀ e' ∈ rest, e'.kind = EntryKind.file ∨ e'.kind = EntryKind.dir :=
      fun e' he' => hk e' (by simp [he'])
    by_cases hm : e.metaOk = false
    · simp [scan_folder, hm] at h
    · by_cases hd : e.kind = EntryKind.dir
      · simp [scan_folder, hm, hd] at h
        have := ih _ _ h hkr
        simp at this
        omega
      · have hf : e.kind = EntryKind.file := by
          rcases hke with hke | hke
          · exact hke
          · exact absurd hke hd
        simp [scan_folder, hm, hd, hf] at h
        have := ih _ _ h hkr
        simp at this
        omega

theorem scan_folder_sum (l : List DirEntry) :
    ∀ r rep, scan_folder l r = Except.ok rep →
      sumB rep.by_extension + r.files = sumB r.by_extension + rep.files := by
  induction l with
  | nil =>
    intro r rep h
    simp [scan_folder] at h
    subst h
    omega
  | cons e rest ih =>
    intro r rep h
    by_cases hm : e.metaOk = false
    · simp [scan_folder, hm] at h
    · by_cases hd : e.kind = EntryKind.dir
      · simp [scan_folder, hm, hd] at h
        have := ih _ _ h
        simp at this
        omega
      · by_cases hf : e.kind = EntryKind.file
        · simp [scan_folder, hm, hd, hf] at h
          have := ih _ _ h
          simp [sumB_bumpExt] at this
          omega
        · simp [scan_folder, hm, hd, hf] at h
          have := ih _ _ h
          simp at this
          omega

theorem scan_folder_key (l : List DirEntry) :
    ∀ r rep k, scan_folder l r = Except.ok rep →
      lookupD rep.by_extension k = lookupD r.by_extension k + countKey l k := by
  induction l with
  | nil =>
    intro r rep k h
    simp [scan_folder] at h
    subst h
    simp [countKey]
  | cons e rest ih =>
    intro r rep k h
    by_cases hm : e.metaOk = false
    · simp [scan_folder, hm] at h
    · by_cases hd : e.kind = EntryKind.dir
      · simp [scan_folder, hm, hd] at h
        have := ih _ _ k h
        simp only [countKey, hd] at this ⊢
        simp at this ⊢
        omega
      · by_cases hf : e.kind = EntryKind.file
        · simp [scan_folder, hm, hd, hf] at h
          have := ih _ _ k h
          simp only [lookupD_bumpExt] at this
          simp only [countKey, hf] at this ⊢
          by_cases hkey : scanKeyPath [e.name] = k
          · simp [hkey] at this ⊢
            omega
          · simp [hkey] at this ⊢
            omega
        · simp [scan_folder, hm, hd, hf] at h
          have := ih _ _ k h
          simp only [countKey, hf] at this ⊢
          simp [hf] at this ⊢
          omega

theorem osToStr_strOs (s : Str) : osToStr (strOs s) = some s := by
  induction s with
  | nil => rfl
  | cons c t ih => simp [strOs, osToStr] at ih ⊢; simp [ih]

theorem osToStr_append_none (xs ys : OsStr) (h : osToStr ys = none) :
    osToStr (xs ++ ys) = none := by
  induction xs with
  | nil => simpa using h
  | cons c t ih =>
    cases c with
    | ch c0 => simp [osToStr, ih]
    | bad b0 => simp [osToStr]

theorem splitLastDot_eq (s : OsStr) :
    ∀ b a, splitLastDot s = some (b, a) → s = b ++ OsChar.ch '.' :: a := by
  induction s with
  | nil => intro b a h; simp [splitLastDot] at h
  | cons c rest ih =>
    intro b a h
    simp only [splitLastDot] at h
    cases hr : splitLastDot rest with
    | some p =>
      obtain ⟨b', a'⟩ := p
      rw [hr] at h
      simp at h
      obtain ⟨hb, ha⟩ := h
      have := ih b' a' hr
      subst hb ha
      simp [this]
    | none =>
      rw [hr] at h
      by_cases hc : c = OsChar.ch '.'
      · simp [hc] at h
        obtain ⟨hb, ha⟩ := h
        subst hb ha
        simp [hc]
      · simp [hc] at h

theorem extOf_decomp (fname ex : OsStr) (h : extOf fname = some ex) :
    ∃ b, fname = b ++ OsChar.ch '.' :: ex := by
  unfold extOf at h
  by_cases hdd : fname = strOs (str "..")
  · simp [hdd] at h
  · rw [if_neg hdd] at h
    cases hs : splitLastDot fname with
    | none => rw [hs] at h; simp at h
    | some p =>
      obtain ⟨b, a⟩ := p
      rw [hs] at h
      by_cases hb : b = []
      · simp [hb] at h
      · simp [hb] at h
        subst h
        exact ⟨b, splitLastDot_eq fname b a hs⟩

theorem osToStr_none_of_ext (fname ex : OsStr) (hext : extOf fname = some ex)
    (hbad : osToStr ex = none) : osToStr fname = none := by
  obtain ⟨b, hb⟩ := extOf_decomp fname ex hext
  rw [hb]
  apply osToStr_append_none
  simp [osToStr, hbad]

theorem fileNameOpt_single (x n : OsStr) (h : fileNameOpt [x] = some n) :
    n = x := by
  unfold fileNameOpt at h
  simp at h
  exact h.2.symm

theorem extPath_single_some (x ex : OsStr) (h : extPath [x] = some ex) :
    fileNameOpt [x] = some x ∧ extOf x = some ex := by
  unfold extPath at h
  cases hf : fileNameOpt [x] with
  | none => rw [hf] at h; simp at h
  | some n =>
    have hnx := fileNameOpt_single x n hf
    rw [hf] at h
    simp at h
    subst hnx
    exact ⟨rfl, h⟩

/-! ## Claim theorems: scan reporter -/

/-- C2 counterexample: a directory with a single entry that is neither a
regular file nor a directory (e.g. a symlink) scans successfully, yet
`files + dirs = 0 ≠ 1 = total_entries`, so the unconditional claim fails. -/
theorem scan_total_counts_cex :
    scan_folder [⟨strOs (str "x"), EntryKind.other, true⟩] initReport
      = Except.ok (⟨1, 0, 0, []⟩ : Report)
    ∧ (⟨1, 0, 0, []⟩ : Report).files + (⟨1, 0, 0, []⟩ : Report).dirs
        ≠ (⟨1, 0, 0, []⟩ : Report).total_entries :=
  ⟨rfl, by decide⟩

/-- C2 (amended): for every directory whose entries are each a regular file
or a directory, a successful scan satisfies
`files + dirs = total_entries`. -/
theorem scan_total_counts_amended (l : List DirEntry) (rep : Report)
    (hk : ∀ e ∈ l, e.kind = EntryKind.file ∨ e.kind = EntryKind.dir)
    (h : scan_folder l initReport = Except.ok rep) :
    rep.files + rep.dirs = rep.total_entries := by
  have := scan_folder_totals l initReport rep h hk
  simp [initReport] at this
  omega

theorem scan_total_counts_amended_witness :
    (⟨2, 1, 1, [(str "txt", 1)]⟩ : Report).files
      + (⟨2, 1, 1, [(str "txt", 1)]⟩ : Report).dirs
      = (⟨2, 1, 1, [(str "txt", 1)]⟩ : Report).total_entries :=
  scan_total_counts_amended
    [⟨strOs (str "A.TXT"), EntryKind.file, true⟩,
     ⟨strOs (str "sub"), EntryKind.dir, true⟩]
    ⟨2, 1, 1, [(str "txt", 1)]⟩ (by decide) (by rfl)

/-- C6: on every successful scan, the counts in `by_extension` sum to
`files`: each file entry bumps exactly one bucket, directories none. -/
theorem by_extension_sum_eq_files (l : List DirEntry) (rep : Report)
    (h : scan_folder l initReport = Except.ok rep) :
    sumB rep.by_extension = rep.files := by
  have := scan_folder_sum l initReport rep h
  simp [initReport, sumB] at this
  omega

theorem by_extension_sum_eq_files_witness :
    sumB (⟨2, 1, 1, [(str "txt", 1)]⟩ : Report).by_extension
      = (⟨2, 1, 1, [(str "txt", 1)]⟩ : Report).files :=
  by_extension_sum_eq_files
    [⟨strOs (str "A.TXT"), EntryKind.file, true⟩,
     ⟨strOs (str "sub"), EntryKind.dir, true⟩]
    ⟨2, 1, 1, [(str "txt", 1)]⟩ (by rfl)

/-- C8: on every successful scan the `"(no_ext)"` bucket holds exactly the
number of file entries whose scan key is the sentinel, and every file name
without an extension gets the sentinel key --- so no-extension files are
always counted, never omitted. -/
theorem no_ext_counted_in_report :
    (∀ (l : List DirEntry) (rep : Report),
        scan_folder l initReport = Except.ok rep →
        lookupD rep.by_extension (str "(no_ext)") = countKey l (str "(no_ext)"))
    ∧ ∀ fname : OsStr, extPath [fname] = none →
        scanKeyPath [fname] = str "(no_ext)" := by
  constructor
  · intro l rep h
    have := scan_folder_key l initReport rep (str "(no_ext)") h
    simpa [initReport, lookupD] using this
  · intro fname h
    simp [scanKeyPath, extKey, h]

theorem no_ext_counted_in_report_witness :
    lookupD [(str "(no_ext)", 1)] (str "(no_ext)")
      = countKey [⟨strOs (str "README"), EntryKind.file, true⟩] (str "(no_ext)")
    ∧ scanKeyPath [strOs (str "README")] = str "(no_ext)" :=
  ⟨no_ext_counted_in_report.1 [⟨strOs (str "README"), EntryKind.file, true⟩]
      ⟨1, 1, 0, [(str "(no_ext)", 1)]⟩ (by rfl),
   no_ext_counted_in_report.2 (strOs (str "README")) (by rfl)⟩

/-- C9: a file whose extension component is not valid UTF-8 is treated
exactly like a file with no extension: the scan counts it under
`"(no_ext)"`, the planner's folder key is `"no_ext"`, and the planner
routes the file to the `no_ext` destination subfolder. -/
theorem non_utf8_ext_as_no_ext (fname ex : OsStr)
    (hext : extPath [fname] = some ex) (hbad : osToStr ex = none) :
    scanKeyPath [fname] = str "(no_ext)"
    ∧ orgKeyPath [fname] = str "no_ext"
    ∧ planMoves [⟨fname, EntryKind.file, true⟩]
        = Except.ok [([fname],
            [strOs (str "organized"), strOs (str "no_ext"), fname])] := by
  obtain ⟨hfn, hof⟩ := extPath_single_some fname ex hext
  have hnone : osToStr fname = none := osToStr_none_of_ext fname ex hof hbad
  have horg : orgKeyPath [fname] = str "no_ext" := by
    simp [orgKeyPath, extKey, hext, hbad]
  refine ⟨by simp [scanKeyPath, extKey, hext, hbad], horg, ?_⟩
  have hnc : ¬ ((fileNameOpt [fname]).bind osToStr = some (str "organized")) := by
    simp [hfn, hnone]
  simp [planMoves, hnc, hfn, horg, hnone]

theorem non_utf8_ext_as_no_ext_witness :
    scanKeyPath [badName] = str "(no_ext)"
    ∧ orgKeyPath [badName] = str "no_ext"
    ∧ planMoves [⟨badName, EntryKind.file, true⟩]
        = Except.ok [([badName],
            [strOs (str "organized"), strOs (str "no_ext"), badName])] :=
  non_utf8_ext_as_no_ext badName [OsChar.bad 255] (by rfl) (by rfl)

/-! ## Planner lemmas -/

/-- Conditions under which the planning loop passes over an entry without
recording a move: decoded name `"organized"`, or readable metadata of a
non-file. -/
def skipCond (e : DirEntry) : Prop :=
  (fileNameOpt [e.name]).bind osToStr = some (str "organized")
  ∨ (e.metaOk = true ∧ e.kind ≠ EntryKind.file)

theorem planMoves_nil_of_skips (l : List DirEntry)
    (h : ∀ e ∈ l, skipCond e) : planMoves l = Except.ok [] := by
  induction l with
  | nil => rfl
  | cons e rest ih =>
    have he := h e (by simp)
    have hrest : ∀ e' ∈ rest, skipCond e' := fun e' he' => h e' (by simp [he'])
    rcases he with hn | ⟨hm, hk⟩
    · simp [planMoves, hn, ih hrest]
    · by_cases hn' : (fileNameOpt [e.name]).bind osToStr = some (str "organized")
      · simp [planMoves, hn', ih hrest]
      · simp [planMoves, hn', hm, hk, ih hrest]

theorem planMoves_sources (l : List DirEntry) :
    ∀ mvs, planMoves l = Except.ok mvs →
      ∀ e ∈ l, skipCond e ∨ ∃ d, ([e.name], d) ∈ mvs := by
  induction l with
  | nil => intro mvs _ e he; simp at he
  | cons e0 rest ih =>
    intro mvs h e he
    by_cases hn : (fileNameOpt [e0.name]).bind osToStr = some (str "organized")
    · simp [planMoves, hn] at h
      rcases List.mem_cons.mp he with rfl | hmem
      · exact Or.inl (Or.inl hn)
      · exact ih mvs h e hmem
    · by_cases hm : e0.metaOk = false
      · simp [planMoves, hn, hm] at h
      · have hm' : e0.metaOk = true := by
          cases hval : e0.metaOk
          · exact absurd hval hm
          · rfl
        by_cases hk : e0.kind = EntryKind.file
        · simp [planMoves, hn, hm, hk] at h
          cases hfn : fileNameOpt [e0.name] with
          | none => rw [hfn] at h; simp at h
          | some n =>
            rw [hfn] at h
            cases hpm : planMoves rest with
            | error err => rw [hpm] at h; simp at h
            | ok tl =>
              rw [hpm] at h
              simp at h
              rcases List.mem_cons.mp he with rfl | hmem
              · exact Or.inr ⟨[strOs (str "organized"),
                  strOs (orgKeyPath [e.name]), n], by rw [← h]; simp⟩
              · rcases ih tl hpm e hmem with hs | ⟨d, hd⟩
                · exact Or.inl hs
                · exact Or.inr ⟨d, by rw [← h]; simp [hd]⟩
        · simp [planMoves, hn, hm, hk] at h
          rcases List.mem_cons.mp he with rfl | hmem
          · exact Or.inl (Or.inr ⟨hm', hk⟩)
          · exact ih mvs h e hmem

theorem planMoves_shape (l : List DirEntry) :
    ∀ mvs, planMoves l = Except.ok mvs →
      ∀ m ∈ mvs, ∃ e ∈ l,
        e.kind = EntryKind.file ∧ e.metaOk = true
        ∧ m.1 = [e.name]
        ∧ fileNameOpt [e.name] = some e.name
        ∧ ¬ ((fileNameOpt [e.name]).bind osToStr = some (str "organized"))
        ∧ m.2 = [strOs (str "organized"), strOs (orgKeyPath [e.name]), e.name] := by
  induction l with
  | nil =>
    intro mvs h m hm
    simp [planMoves] at h
    subst h
    simp at hm
  | cons e0 rest ih =>
    intro mvs h m hm
    by_cases hn : (fileNameOpt [e0.name]).bind osToStr = some (str "organized")
    · simp [planMoves, hn] at h
      obtain ⟨e, hel, he⟩ := ih mvs h m hm
      exact ⟨e, by simp [hel], he⟩
    · by_cases hmk : e0.metaOk = false
      · simp [planMoves, hn, hmk] at h
      · have hm' : e0.metaOk = true := by
          cases hval : e0.metaOk
          · exact absurd hval hmk
          · rfl
        by_cases hk : e0.kind = EntryKind.file
        · simp [planMoves, hn, hmk, hk] at h
          cases hfn : fileNameOpt [e0.name] with
          | none => rw [hfn] at h; simp at h
          | some n =>
            have hne : n = e0.name := fileNameOpt_single _ _ hfn
            subst hne
            rw [hfn] at h
            cases hpm : planMoves rest with
            | error err => rw [hpm] at h; simp at h
            | ok tl =>
              rw [hpm] at h
              simp at h
              rw [← h] at hm
              rcases List.mem_cons.mp hm with rfl | hmem
              · exact ⟨e0, by simp, hk, hm', rfl, hfn, hn, rfl⟩
              · obtain ⟨e, hel, he⟩ := ih tl hpm m hmem
                exact ⟨e, by simp [hel], he⟩
        · simp [planMoves, hn, hmk, hk] at h
          obtain ⟨e, hel, he⟩ := ih mvs h m hm
          exact ⟨e, by simp [hel], he⟩

/-! ## Claim theorems: organize planner -/

/-- C3: no computed move has a source whose file name is literally
`organized` --- regardless of the entry's kind and of whether the
`organized/` root already exists, since the theorem quantifies over every
listing. -/
theorem plan_never_moves_organized (l : List DirEntry)
    (mvs : List (FsPath × FsPath)) (h : planMoves l = Except.ok mvs) :
    ∀ m ∈ mvs, (fileNameOpt m.1).bind osToStr ≠ some (str "organized")
      ∧ m.1 ≠ [strOs (str "organized")] := by
  intro m hm
  obtain ⟨e, _, _, _, h1, hfn, hnc, _⟩ := planMoves_shape l mvs h m hm
  constructor
  · rw [h1]
    exact hnc
  · intro heq
    apply hnc
    rw [h1] at heq
    have hname : e.name = strOs (str "organized") := by simpa using heq
    rw [hfn]
    simp [hname, osToStr_strOs]

theorem plan_never_moves_organized_witness :
    (fileNameOpt [strOs (str "a.txt")]).bind osToStr ≠ some (str "organized")
    ∧ [strOs (str "a.txt")] ≠ [strOs (str "organized")] :=
  plan_never_moves_organized
    [⟨strOs (str "a.txt"), EntryKind.file, true⟩]
    [([strOs (str "a.txt")],
      [strOs (str "organized"), strOs (str "txt"), strOs (str "a.txt")])]
    (by rfl)
    ([strOs (str "a.txt")],
      [strOs (str "organized"), strOs (str "txt"), strOs (str "a.txt")])
    (by simp)

/-- C5: every planned move starts at a top-level file entry and ends at
`organized/<ext>/<original-name>`, where `<ext>` is the file's extension
lower-cased (when the extension decodes as UTF-8) or the literal `no_ext`
when the file has no extension; the file name is preserved unchanged. -/
theorem plan_dest_path_shape (l : List DirEntry)
    (mvs : List (FsPath × FsPath)) (h : planMoves l = Except.ok mvs)
    (src dst : FsPath) (hm : (src, dst) ∈ mvs) :
    ∃ e ∈ l, src = [e.name] ∧ e.kind = EntryKind.file
      ∧ (extPath src = none →
          dst = [strOs (str "organized"), strOs (str "no_ext"), e.name])
      ∧ ∀ ex s, extPath src = some ex → osToStr ex = some s →
          dst = [strOs (str "organized"), strOs (lowerStr s), e.name] := by
  obtain ⟨e, hel, hf, _, h1, _, _, h2⟩ := planMoves_shape l mvs h (src, dst) hm
  simp only at h1 h2
  refine ⟨e, hel, h1, hf, ?_, ?_⟩
  · intro hne
    rw [h1] at hne
    have : orgKeyPath [e.name] = str "no_ext" := by
      simp [orgKeyPath, extKey, hne]
    rw [h2, this]
  · intro ex s hex hs
    rw [h1] at hex
    have : orgKeyPath [e.name] = lowerStr s := by
      simp [orgKeyPath, extKey, hex, hs]
    rw [h2, this]

theorem plan_dest_path_shape_witness :
    ∃ e ∈ [(⟨strOs (str "a.txt"), EntryKind.file, true⟩ : DirEntry)],
      [strOs (str "a.txt")] = [e.name] ∧ e.kind = EntryKind.file
      ∧ (extPath [strOs (str "a.txt")] = none →
          [strOs (str "organized"), strOs (str "txt"), strOs (str "a.txt")]
            = [strOs (str "organized"), strOs (str "no_ext"), e.name])
      ∧ ∀ ex s, extPath [strOs (str "a.txt")] = some ex → osToStr ex = some s →
          [strOs (str "organized"), strOs (str "txt"), strOs (str "a.txt")]
            = [strOs (str "organized"), strOs (lowerStr s), e.name] :=
  plan_dest_path_shape
    [⟨strOs (str "a.txt"), EntryKind.file, true⟩]
    [([strOs (str "a.txt")],
      [strOs (str "organized"), strOs (str "txt"), strOs (str "a.txt")])]
    (by rfl)
    [strOs (str "a.txt")]
    [strOs (str "organized"), strOs (str "txt"), strOs (str "a.txt")]
    (by simp)

/-- C10: on any listing whose entry names are valid `read_dir` output
(nonempty, not `.`, not `..`), the planner never reaches the
`file_name().unwrap()` panic. -/
theorem plan_file_name_unwrap_safe (l : List DirEntry)
    (h : ∀ e ∈ l, e.name ≠ [] ∧ e.name ≠ strOs (str ".")
          ∧ e.name ≠ strOs (str "..")) :
    planMoves l ≠ Except.error Err.unwrapPanic := by
  induction l with
  | nil => simp [planMoves]
  | cons e rest ih =>
    have he := h e (by simp)
    have hrest : ∀ e' ∈ rest, e'.name ≠ [] ∧ e'.name ≠ strOs (str ".")
        ∧ e'.name ≠ strOs (str "..") := fun e' he' => h e' (by simp [he'])
    have ihr := ih hrest
    have hfn : fileNameOpt [e.name] = some e.name := by
      simp [fileNameOpt, he.1, he.2.1, he.2.2]
    by_cases hn : (fileNameOpt [e.name]).bind osToStr = some (str "organized")
    · simpa [planMoves, hn] using ihr
    · by_cases hm : e.metaOk = false
      · simp [planMoves, hn, hm]
      · have hn' : ¬ (osToStr e.name = some (str "organized")) := by
          rw [hfn] at hn
          simpa using hn
        by_cases hk : e.kind = EntryKind.file
        · cases hpm : planMoves rest with
          | error err =>
            have hne : err ≠ Err.unwrapPanic := by
              intro hh
              exact ihr (by rw [hpm, hh])
            simp [planMoves, hn', hm, hk, hfn, hpm, hne]
          | ok tl =>
            simp [planMoves, hn', hm, hk, hfn, hpm]
        · simpa [planMoves, hn, hm, hk] using ihr

theorem plan_file_name_unwrap_safe_witness :
    planMoves [⟨strOs (str "a.txt"), EntryKind.file, true⟩]
      ≠ Except.error Err.unwrapPanic :=
  plan_file_name_unwrap_safe
    [⟨strOs (str "a.txt"), EntryKind.file, true⟩] (by decide)

/-! ## Executor lemmas -/

theorem mem_mkdirIfMissing (p : FsPath) (fs : FS) (e' : FSEntry)
    (h : e' ∈ (mkdirIfMissing p fs).entries) :
    e' ∈ fs.entries ∨ e' = ⟨p, EntryKind.dir, true⟩ := by
  unfold mkdirIfMissing at h
  split at h
  · exact Or.inl h
  · simp at h
    rcases h with h | h
    · exact Or.inl h
    · exact Or.inr h

theorem mem_foldl_mkdir (qs : List FsPath) :
    ∀ fs e', e' ∈ ((qs.foldl (fun f q => mkdirIfMissing q f) fs).entries) →
      e' ∈ fs.entries ∨ ∃ q ∈ qs, e' = ⟨q, EntryKind.dir, true⟩ := by
  induction qs with
  | nil => intro fs e' h; exact Or.inl h
  | cons q rest ih =>
    intro fs e' h
    rcases ih _ _ h with h1 | ⟨q', hq', he⟩
    · rcases mem_mkdirIfMissing q fs e' h1 with h2 | h2
      · exact Or.inl h2
      · exact Or.inr ⟨q, by simp, h2⟩
    · exact Or.inr ⟨q', by simp [hq'], he⟩

theorem mem_create_dir_all (p : FsPath) (fs : FS) (e' : FSEntry)
    (h : e' ∈ (create_dir_all p fs).entries) :
    e' ∈ fs.entries ∨ ∃ q ∈ pathPrefixes p, e' = ⟨q, EntryKind.dir, true⟩ :=
  mem_foldl_mkdir (pathPrefixes p) fs e' h

theorem mem_rename (src dst : FsPath) (fs : FS) (e' : FSEntry)
    (h : e' ∈ (rename src dst fs).entries) :
    (e' ∈ fs.entries ∧ e'.path ≠ src) ∨ e'.path = dst := by
  unfold rename at h
  simp [List.mem_filter] at h
  rcases h with ⟨h1, h2⟩ | ⟨a, _, he⟩
  · exact Or.inl ⟨h1, h2⟩
  · right
    rw [← he]

theorem execMoves_entries (o : Oracle) (mvs : List (FsPath × FsPath)) :
    ∀ fs fs2 u, execMoves o mvs fs = (Except.ok u, fs2) →
      ∀ e' ∈ fs2.entries,
        (e' ∈ fs.entries ∧ ∀ m ∈ mvs, e'.path ≠ m.1)
        ∨ (∃ m ∈ mvs, e'.path ∈ pathPrefixes m.2.dropLast
            ∧ e'.kind = EntryKind.dir ∧ e'.metaOk = true)
        ∨ (∃ m ∈ mvs, e'.path = m.2) := by
  induction mvs with
  | nil =>
    intro fs fs2 u h e' he'
    simp [execMoves] at h
    rw [← h] at he'
    exact Or.inl ⟨he', by simp⟩
  | cons m0 rest ih =>
    obtain ⟨src, dst⟩ := m0
    intro fs fs2 u h e' he'
    by_cases hc : o.createFail dst.dropLast = true
    · simp [execMoves, hc] at h
    · by_cases hr : o.renameFail src dst = true
      · simp [execMoves, hc, hr] at h
      · simp only [execMoves, hc, hr, if_false, Bool.false_eq_true] at h
        rcases ih _ _ _ h e' he' with ⟨hmem, hns⟩ | ⟨m', hm', hrest⟩ | ⟨m', hm', hdst⟩
        · rcases mem_rename src dst _ e' hmem with ⟨hmem1, hne⟩ | hisdst
          · rcases mem_create_dir_all dst.dropLast fs e' hmem1 with hmem0 | ⟨q, hq, he⟩
            · refine Or.inl ⟨hmem0, ?_⟩
              intro m hm
              rcases List.mem_cons.mp hm with rfl | hm2
              · exact hne
              · exact hns m hm2
            · exact Or.inr (Or.inl ⟨(src, dst), by simp, by rw [he]; exact hq,
                by rw [he], by rw [he]⟩)
          · exact Or.inr (Or.inr ⟨(src, dst), by simp, hisdst⟩)
        · exact Or.inr (Or.inl ⟨m', by simp [hm'], hrest⟩)
        · exact Or.inr (Or.inr ⟨m', by simp [hm'], hdst⟩)

theorem execMoves_ok_state (o : Oracle) (mvs : List (FsPath × FsPath)) :
    ∀ fs fs2 u, execMoves o mvs fs = (Except.ok u, fs2) →
      fs2 = applyMoves mvs fs := by
  induction mvs with
  | nil =>
    intro fs fs2 u h
    simp [execMoves] at h
    simp [applyMoves, h]
  | cons m0 rest ih =>
    obtain ⟨src, dst⟩ := m0
    intro fs fs2 u h
    by_cases hc : o.createFail dst.dropLast = true
    · simp [execMoves, hc] at h
    · by_cases hr : o.renameFail src dst = true
      · simp [execMoves, hc, hr] at h
      · simp only [execMoves] at h
        rw [if_neg (by simp [hc]), if_neg (by simp [hr])] at h
        exact ih _ _ _ h

theorem execMoves_error_state (o : Oracle) (mvs : List (FsPath × FsPath)) :
    ∀ fs fs2 err, execMoves o mvs fs = (Except.error err, fs2) →
      err = Err.ioError
      ∧ ∃ done m rest, mvs = done ++ m :: rest
          ∧ (fs2 = applyMoves done fs
             ∨ fs2 = create_dir_all m.2.dropLast (applyMoves done fs)) := by
  induction mvs with
  | nil =>
    intro fs fs2 err h
    simp [execMoves] at h
  | cons m0 rest ih =>
    obtain ⟨src, dst⟩ := m0
    intro fs fs2 err h
    by_cases hc : o.createFail dst.dropLast = true
    · simp [execMoves, hc] at h
      obtain ⟨h1, h2⟩ := h
      refine ⟨h1.symm, [], (src, dst), rest, by simp, Or.inl ?_⟩
      simp [applyMoves, h2]
    · by_cases hr : o.renameFail src dst = true
      · simp only [execMoves] at h
        rw [if_neg (by simp [hc]), if_pos (by simp [hr])] at h
        simp at h
        obtain ⟨h1, h2⟩ := h
        refine ⟨h1.symm, [], (src, dst), rest, by simp, Or.inr ?_⟩
        simp [applyMoves, h2]
      · simp only [execMoves] at h
        rw [if_neg (by simp [hc]), if_neg (by simp [hr])] at h
        obtain ⟨h1, done, m, tail, h2, h3⟩ :=
          ih (rename src dst (create_dir_all dst.dropLast fs)) fs2 err h
        refine ⟨h1, (src, dst) :: done, m, tail, by simp [h2], ?_⟩
        have : applyMoves ((src, dst) :: done) fs
            = applyMoves done (rename src dst (create_dir_all dst.dropLast fs)) := rfl
        rw [this]
        exact h3

theorem organize_false_ok (o : Oracle) (fs fs2 : FS)
    (mvs : List (FsPath × FsPath))
    (h : organize o false fs = (Except.ok mvs, fs2)) :
    planMoves (readDirTop fs) = Except.ok mvs
    ∧ execMoves o mvs fs = (Except.ok (), fs2) := by
  unfold organize at h
  cases hp : planMoves (readDirTop fs) with
  | error e => rw [hp] at h; simp at h
  | ok moves =>
    rw [hp] at h
    by_cases he : moves = []
    · subst he
      simp at h
      obtain ⟨h1, h2⟩ := h
      subst h1
      subst h2
      exact ⟨rfl, rfl⟩
    · simp [he] at h
      unfold execResult at h
      cases hx : execMoves o moves fs with
      | mk res fsx =>
        rw [hx] at h
        cases res with
        | ok u =>
          simp at h
          obtain ⟨h1, h2⟩ := h
          subst h1
          subst h2
          cases u
          exact ⟨rfl, hx⟩
        | error e2 =>
          simp at h

/-! ## Claim theorems: move executor -/

/-- C1: whenever an execute-mode run completes successfully, the plan the
next run computes on the resulting directory state is empty, and a whole
second `organize` run (any oracle, any mode) is a no-op: every former
top-level file now lies under `organized/<ext>/`, and the remaining
top-level entries (the `organized` directory, other directories,
non-file entries) are all skipped. -/
theorem organize_second_run_plan_empty (o : Oracle) (fs fs2 : FS)
    (mvs : List (FsPath × FsPath))
    (h : organize o false fs = (Except.ok mvs, fs2)) :
    planMoves (readDirTop fs2) = Except.ok []
    ∧ ∀ o2 dry2, organize o2 dry2 fs2 = (Except.ok [], fs2) := by
  obtain ⟨hplan, hexec⟩ := organize_false_ok o fs fs2 mvs h
  have hskip : ∀ de ∈ readDirTop fs2, skipCond de := by
    intro de hde
    rw [readDirTop, List.mem_filterMap] at hde
    obtain ⟨e', he', hmap⟩ := hde
    cases hp : e'.path with
    | nil => rw [hp] at hmap; simp at hmap
    | cons n t =>
      cases t with
      | cons y ys => rw [hp] at hmap; simp at hmap
      | nil =>
        rw [hp] at hmap
        simp at hmap
        subst hmap
        rcases execMoves_entries o mvs fs fs2 () hexec e' he'
          with ⟨hmem, hns⟩ | ⟨m, hm, hpref, hkind, hmok⟩ | ⟨m, hm, hdst⟩
        · have hdein : (⟨n, e'.kind, e'.metaOk⟩ : DirEntry) ∈ readDirTop fs := by
            rw [readDirTop, List.mem_filterMap]
            refine ⟨e', hmem, ?_⟩
            rw [hp]
          rcases planMoves_sources _ _ hplan _ hdein with hs | ⟨d, hd⟩
          · exact hs
          · exact absurd hp (hns ([n], d) hd)
        · exact Or.inr ⟨hmok, by show e'.kind ≠ EntryKind.file; rw [hkind]; decide⟩
        · obtain ⟨e2, he2l, hf2, hmk2, hm1, hfn2, hnc2, hm2⟩ :=
            planMoves_shape _ _ hplan m hm
          exfalso
          rw [hm2, hp] at hdst
          simp at hdst
  have h2 : planMoves (readDirTop fs2) = Except.ok [] :=
    planMoves_nil_of_skips _ hskip
  refine ⟨h2, ?_⟩
  intro o2 dry2
  unfold organize
  rw [h2]
  simp

theorem organize_second_run_plan_empty_witness :
    planMoves (readDirTop fsSampleAfter) = Except.ok []
    ∧ organize okOracle false fsSampleAfter = (Except.ok [], fsSampleAfter) :=
  ⟨(organize_second_run_plan_empty okOracle fsSample fsSampleAfter [mvSample]
      (by rfl)).1,
   (organize_second_run_plan_empty okOracle fsSample fsSampleAfter [mvSample]
      (by rfl)).2 okOracle false⟩

/-- C4: a dry run mutates nothing --- the filesystem state after
`organize(dry_run=true)` is the state before --- and the plan it prints is
exactly the list of moves execute mode runs from the same state: given the
dry run printed `mvs`, execute mode (under any oracle) is precisely
`execResult` on those same `mvs`. -/
theorem dry_run_no_mutation_same_plan (o : Oracle) (fs : FS) :
    (organize o true fs).2 = fs
    ∧ ∀ mvs o2, (organize o true fs).1 = Except.ok mvs →
        organize o2 false fs = execResult o2 mvs fs := by
  constructor
  · unfold organize
    cases hp : planMoves (readDirTop fs) with
    | error e => simp
    | ok moves =>
      by_cases he : moves = []
      · simp [he]
      · simp [he]
  · intro mvs o2 h1
    unfold organize at h1 ⊢
    cases hp : planMoves (readDirTop fs) with
    | error e => rw [hp] at h1; simp at h1
    | ok moves =>
      rw [hp] at h1
      by_cases he : moves = []
      · subst he
        simp at h1
        subst h1
        simp [execResult, execMoves]
      · simp [he] at h1
        subst h1
        simp [he]

theorem dry_run_no_mutation_same_plan_witness :
    (organize okOracle true fsSample).2 = fsSample
    ∧ organize okOracle false fsSample = execResult okOracle [mvSample] fsSample :=
  ⟨(dry_run_no_mutation_same_plan okOracle fsSample).1,
   (dry_run_no_mutation_same_plan okOracle fsSample).2 [mvSample] okOracle
      (by rfl)⟩

/-- C7: every I/O failure is fatal with no recovery.  A failing per-entry
`metadata()` read makes the whole scan return an I/O error (no partial
report exists --- the error carries none).  A failing directory creation or
rename makes the executor abort at that move with an I/O error, leaving
the state with every earlier move applied (plus possibly the failing
move's directory creation) --- no rollback or compensation. -/
theorem io_failures_fatal :
    (∀ (l : List DirEntry) (r : Report), (∃ e ∈ l, e.metaOk = false) →
        scan_folder l r = Except.error Err.ioError)
    ∧ ∀ (o : Oracle) (mvs : List (FsPath × FsPath)) (fs fs2 : FS) (err : Err),
        execMoves o mvs fs = (Except.error err, fs2) →
          err = Err.ioError
          ∧ ∃ done m rest, mvs = done ++ m :: rest
              ∧ (fs2 = applyMoves done fs
                 ∨ fs2 = create_dir_all m.2.dropLast (applyMoves done fs)) := by
  constructor
  · intro l
    induction l with
    | nil => intro r hex; simp at hex
    | cons e rest ih =>
      intro r hex
      by_cases hm : e.metaOk = false
      · simp [scan_folder, hm]
      · have hrex : ∃ e' ∈ rest, e'.metaOk = false := by
          obtain ⟨e0, he0, hb⟩ := hex
          rcases List.mem_cons.mp he0 with rfl | hmem
          · exact absurd hb hm
          · exact ⟨e0, hmem, hb⟩
        by_cases hd : e.kind = EntryKind.dir
        · simp [scan_folder, hm, hd]
          exact ih _ hrex
        · by_cases hf : e.kind = EntryKind.file
          · simp [scan_folder, hm, hd, hf]
            exact ih _ hrex
          · simp [scan_folder, hm, hd, hf]
            exact ih _ hrex
  · intro o mvs fs fs2 err h
    exact execMoves_error_state o mvs fs fs2 err h

theorem io_failures_fatal_witness :
    scan_folder [⟨strOs (str "x"), EntryKind.file, false⟩] initReport
      = Except.error Err.ioError
    ∧ (Err.ioError = Err.ioError
       ∧ ∃ done m rest,
          [mvSample] = done ++ m :: rest
          ∧ ((⟨[]⟩ : FS) = applyMoves done ⟨[]⟩
             ∨ (⟨[]⟩ : FS) = create_dir_all m.2.dropLast (applyMoves done ⟨[]⟩))) :=
  ⟨io_failures_fatal.1 [⟨strOs (str "x"), EntryKind.file, false⟩] initReport
      ⟨⟨strOs (str "x"), EntryKind.file, false⟩, by simp, rfl⟩,
   io_failures_fatal.2 failOracle [mvSample] ⟨[]⟩ ⟨[]⟩ Err.ioError (by rfl)⟩

end FileOrganizer
